import Mathlib

/-!
Verification of the sequence combinator of tinybaker
(src/tinybaker/combinators/sequence.py), via a shallow embedding.

Modelling conventions:
* A Python string tag is a Lean String.
* A Python dict is an association list (List (Tag × α)) whose operations
  mirror CPython dict semantics: assignment updates the first matching key
  in place, or appends a fresh entry; find returns the first match.
* A Python set of tags is carried as a List Tag; the source only uses
  membership, iteration, difference, union and len on these sets, all of
  which are modelled by the corresponding list operations.
* Exceptions are modelled by Except.  The error classes of
  tinybaker.exceptions (outside the embedded file) are modelled from the
  spec: BakerError is the base composition error and TagConflictError is
  the named specialization for tag conflicts; each carries its message.
* uuid4() is modelled by a stream of identifiers (Nat → String) consumed
  in allocation order, plus one run identifier for the sequence instance.
-/

deriving instance DecidableEq for Except

namespace Tinybaker

abbrev Tag := String

/-- One step definition: its declared input tag set and output tag set
(StepDefinition subclasses expose input_file_set and output_file_set). -/
structure StepDef where
  input_file_set : List Tag
  output_file_set : List Tag
deriving Repr, DecidableEq

/-- Modelled from the spec: the exception classes of tinybaker.exceptions
(the module itself is not part of the embedded source).  BakerError is the
base composition error; TagConflictError is the named specialization for
tag conflicts ("duplicate output producers (a named specialization
identifying the conflicting tag)").  Each carries its message string. -/
inductive PyExc where
  | bakerError (msg : String)
  | tagConflictError (msg : String)
deriving Repr, DecidableEq

/-- A scope entry, as in the source: (source step index, reference count),
with source index -1 for external tags. -/
abbrev TagRef := Int × Nat

/-- A Python dict with string keys: association list, first match wins. -/
abbrev PyDict (α : Type) := List (Tag × α)

/-- Python d[k] lookup (as an Option): first entry with the given key. -/
def dictFind? {α : Type} : PyDict α → Tag → Option α
  | [], _ => none
  | (k, v) :: rest, t => if k = t then some v else dictFind? rest t

/-- Python d[k] = v: update the entry with key k in place, or append a
fresh entry at the end (CPython dicts have unique keys and preserve
insertion order). -/
def dictSet {α : Type} : PyDict α → Tag → α → PyDict α
  | [], k, v => [(k, v)]
  | (k0, v0) :: rest, k, v =>
    if k0 = k then (k, v) :: rest else (k0, v0) :: dictSet rest k v

/-- The keys of a dict, in insertion order. -/
def dictKeys {α : Type} (m : PyDict α) : List Tag :=
  m.map (fun p => p.1)

/-- A dict comprehension that keeps the entries whose key satisfies p
(the source only filters dicts by key membership tests). -/
def dictFilterKeys {α : Type} (p : Tag → Bool) (m : PyDict α) : PyDict α :=
  m.filter (fun e => p e.1)

/-- Python d.update(other): assign every entry of other into d, in order. -/
def dictUpdate {α : Type} : PyDict α → PyDict α → PyDict α
  | m, [] => m
  | m, (k, v) :: rest => dictUpdate (dictSet m k v) rest

/-- Python sep.join(items): concatenate with a separator. -/
def pyJoin (sep : String) : List String → String
  | [] => ""
  | [x] => x
  | x :: rest => x ++ sep ++ pyJoin sep rest

/-- The lexical scope: tag → (source step index, refCount). -/
abbrev Scope := PyDict TagRef

/-- The input-tag loop of _build_lexical_scope for one step: an unseen tag
is registered as external with refCount 1, a seen tag has its refCount
incremented (inc_ref_count keeps the origin). -/
def addInputs (scope : Scope) : List Tag → Scope
  | [] => scope
  | t :: rest =>
    match dictFind? scope t with
    | none => addInputs (dictSet scope t (-1, 1)) rest
    | some r => addInputs (dictSet scope t (r.1, r.2 + 1)) rest

/-- The output-tag loop of _build_lexical_scope for one step: an output tag
already in scope raises BakerError, otherwise it is entered as (i, 0). -/
def addOutputs (i : Int) (scope : Scope) : List Tag → Except PyExc Scope
  | [] => .ok scope
  | t :: rest =>
    if (dictFind? scope t).isSome then
      .error (.bakerError ("Multiple steps in sequence generate output tag " ++ t))
    else
      addOutputs i (dictSet scope t (i, 0)) rest

/-- The main loop of _build_lexical_scope over the steps, carrying the
current step index i. -/
def buildScopeAux (scope : Scope) (i : Int) : List StepDef → Except PyExc Scope
  | [] => .ok scope
  | step :: rest => do
    let scope1 := addInputs scope step.input_file_set
    let scope2 ← addOutputs i scope1 step.output_file_set
    buildScopeAux scope2 (i + 1) rest

/-- _build_lexical_scope(steps): map each tag to its origin step index
(-1 for external) and its subsequent reference count. -/
def buildLexicalScope (steps : List StepDef) : Except PyExc Scope :=
  buildScopeAux [] 0 steps

/-- The set comprehension for seq_input_file_set: tags whose scope entry
has origin -1. -/
def scopeInputs (scope : Scope) : List Tag :=
  dictKeys (scope.filter (fun p => p.2.1 = -1))

/-- The set comprehension for the raw seq_output_file_set: tags whose
scope entry has refCount 0. -/
def scopeRawOutputs (scope : Scope) : List Tag :=
  dictKeys (scope.filter (fun p => p.2.2 = 0))

/-- _determine_sequence_interface(seq_steps, exposed_intermediates):
build the scope, derive the input and output tag sets, validate the
exposed intermediates, and return [input set, output set]. -/
def determineSequenceInterface (seq_steps : List StepDef)
    (exposed_intermediates : List Tag) : Except PyExc (List Tag × List Tag) := do
  let lexical_scope ← buildLexicalScope seq_steps
  let seq_input_file_set := scopeInputs lexical_scope
  let raw_output_file_set := scopeRawOutputs lexical_scope
  let non_inputs := (dictKeys lexical_scope).filter
    (fun t => decide (t ∉ seq_input_file_set))
  let offending := exposed_intermediates.filter (fun t => decide (t ∉ non_inputs))
  if 0 < offending.length then
    .error (.bakerError ("Attempting to expose non-generated intermediate(s): "
      ++ pyJoin ", " exposed_intermediates))
  else
    .ok (seq_input_file_set, raw_output_file_set.union exposed_intermediates)

/-- The value returned by sequence(): either the single step itself, or a
synthesized Sequence step definition holding the derived interface and the
ordered child steps. -/
inductive SequenceResult where
  | single (s : StepDef)
  | composite (input_file_set output_file_set : List Tag) (steps : List StepDef)
deriving Repr, DecidableEq

/-- sequence(seq_steps, exposed_intermediates): validate, then build the
composite Sequence class (modelled by its interface sets and child list). -/
def sequence (seq_steps : List StepDef) (exposed_intermediates : List Tag) :
    Except PyExc SequenceResult :=
  match seq_steps with
  | [] => .error (.bakerError "Cannot sequence fewer than 1 event")
  | [s] => .ok (.single s)
  | _ => do
    let _ ← buildLexicalScope seq_steps
    let (ins, outs) ← determineSequenceInterface seq_steps exposed_intermediates
    return .composite ins outs seq_steps

example :
    sequence [⟨["raw"], ["clean"]⟩, ⟨["clean"], ["report"]⟩] [] =
      .ok (.composite ["raw"] ["report"]
        [⟨["raw"], ["clean"]⟩, ⟨["clean"], ["report"]⟩]) := by decide

/-- A tag → concrete path mapping, as used inside Sequence.script. -/
abbrev PathMap := PyDict String

/-- The per-run temporary folder of Sequence._generate_temp_filename:
"/tmp/tinybaker-{sid}" for the run identifier sid. -/
def tempFolder (sid : String) : String :=
  "/tmp/tinybaker-" ++ sid

/-- Sequence._generate_temp_filename(sid): a fresh file inside the per-run
temporary folder, named by the next value of the uuid4 stream (the mkdir
side effect is not modelled; it does not affect the returned path). -/
def generateTempFilename (sid : String) (uuids : Nat → String) (k : Nat) : String :=
  tempFolder sid ++ "/" ++ uuids k

/-- One planned child-step instantiation: the input and output path dicts
passed to step(input_paths=..., output_paths=...). -/
structure PlannedStep where
  input_paths : PathMap
  output_paths : PathMap
deriving Repr, DecidableEq

/-- The generated_output_paths comprehension: allocate one fresh temp file
per tag, consuming the uuid stream in order, returning the next index. -/
def allocTemps (sid : String) (uuids : Nat → String) :
    Nat → List Tag → PathMap × Nat
  | c, [] => ([], c)
  | c, t :: rest =>
    let res := allocTemps sid uuids (c + 1) rest
    ((t, generateTempFilename sid uuids c) :: res.1, res.2)

/-- One iteration of the phase-1 loop of Sequence.script: resolve the input
paths from the sequence-level inputs and the previous step's outputs, and
the output paths from fresh temp files and the sequence-level outputs. -/
def planOne (seqIn seqOut : PathMap) (seqOutSet : List Tag)
    (sid : String) (uuids : Nat → String) (step : StepDef)
    (prev : PathMap) (c : Nat) : PlannedStep × Nat :=
  let input_paths_from_sequence :=
    dictFilterKeys (fun t => decide (t ∈ step.input_file_set)) seqIn
  let input_paths_from_prev :=
    dictFilterKeys (fun t => decide (t ∈ step.input_file_set)) prev
  let input_paths := dictUpdate input_paths_from_sequence input_paths_from_prev
  let generated := allocTemps sid uuids c
    (step.output_file_set.filter (fun t => decide (t ∉ seqOutSet)))
  let output_paths_from_sequence :=
    dictFilterKeys (fun t => decide (t ∈ step.output_file_set)) seqOut
  let output_paths := dictUpdate generated.1 output_paths_from_sequence
  (⟨input_paths, output_paths⟩, generated.2)

/-- The phase-1 loop of Sequence.script over the remaining steps, carrying
prev_output_paths and the uuid-stream position. -/
def planAux (seqIn seqOut : PathMap) (seqOutSet : List Tag)
    (sid : String) (uuids : Nat → String) :
    List StepDef → PathMap → Nat → List PlannedStep
  | [], _, _ => []
  | step :: rest, prev, c =>
    let pc := planOne seqIn seqOut seqOutSet sid uuids step prev c
    pc.1 :: planAux seqIn seqOut seqOutSet sid uuids rest pc.1.output_paths pc.2

/-- Phase 1 of Sequence.script: plan every child instantiation, starting
from an empty prev_output_paths and the beginning of the uuid stream. -/
def planScript (seqIn seqOut : PathMap) (seqOutSet : List Tag)
    (sid : String) (uuids : Nat → String) (steps : List StepDef) :
    List PlannedStep :=
  planAux seqIn seqOut seqOutSet sid uuids steps [] 0

/-- Phase 2 of Sequence.script: run instance.build(overwrite=True) on each
instance in order.  The build behaviour of a child step is opaque here, so
it is a parameter giving each instance index an outcome; the result pairs
the list of indices whose build was started, in start order, with the
overall outcome (an uncaught exception aborts the loop). -/
def runInstances (build : Nat → Except PyExc Unit) :
    List Nat → List Nat × Except PyExc Unit
  | [] => ([], .ok ())
  | i :: rest =>
    match build i with
    | .ok _ =>
      let r := runInstances build rest
      (i :: r.1, r.2)
    | .error e => ([i], .error e)

example :
    planScript [("raw", "/d/raw.csv")] [("report", "/d/out.csv")] ["report"]
      "run0" (fun k => toString k)
      [⟨["raw"], ["clean"]⟩, ⟨["clean"], ["report"]⟩] =
    [⟨[("raw", "/d/raw.csv")], [("clean", "/tmp/tinybaker-run0/0")]⟩,
     ⟨[("clean", "/tmp/tinybaker-run0/0")], [("report", "/d/out.csv")]⟩] := by
  decide

example :
    sequence [⟨[], ["x"]⟩, ⟨[], ["x"]⟩] [] =
      .error (.bakerError "Multiple steps in sequence generate output tag x") := by
  decide

/-! ### Dictionary lemmas -/

theorem dictFind?_dictSet_self {α : Type} (m : PyDict α) (k : Tag) (v : α) :
    dictFind? (dictSet m k v) k = some v := by
  induction m with
  | nil => simp [dictSet, dictFind?]
  | cons e rest ih =>
    rcases e with ⟨k0, v0⟩
    by_cases h : k0 = k
    · simp [dictSet, dictFind?, h]
    · simp [dictSet, dictFind?, h, ih]

theorem dictFind?_dictSet_ne {α : Type} (m : PyDict α) (k t : Tag) (v : α)
    (h : k ≠ t) : dictFind? (dictSet m k v) t = dictFind? m t := by
  induction m with
  | nil => simp [dictSet, dictFind?, h]
  | cons e rest ih =>
    rcases e with ⟨k0, v0⟩
    by_cases h0 : k0 = k
    · subst h0
      simp [dictSet, dictFind?, h]
    · have hne : ¬ t = k := fun hh => h hh.symm
      by_cases ht : k0 = t
      · simp [dictSet, dictFind?, h0, ht, hne]
      · simp [dictSet, dictFind?, h0, ht, hne, ih]

theorem dictKeys_dictSet {α : Type} (m : PyDict α) (k : Tag) (v : α) :
    dictKeys (dictSet m k v) =
      if k ∈ dictKeys m then dictKeys m else dictKeys m ++ [k] := by
  induction m with
  | nil => simp [dictSet, dictKeys]
  | cons e rest ih =>
    rcases e with ⟨k0, v0⟩
    by_cases h0 : k0 = k
    · subst h0
      simp [dictSet, dictKeys]
    · have hne : ¬ k = k0 := fun h => h0 h.symm
      by_cases hk : k ∈ dictKeys rest
      · simp only [dictSet, if_neg h0, dictKeys, List.map_cons] at *
        simp [hk, hne, ih]
      · simp only [dictSet, if_neg h0, dictKeys, List.map_cons] at *
        simp [hk, hne, ih]

theorem dictKeys_nodup_dictSet {α : Type} (m : PyDict α) (k : Tag) (v : α)
    (h : (dictKeys m).Nodup) : (dictKeys (dictSet m k v)).Nodup := by
  rw [dictKeys_dictSet]
  by_cases hk : k ∈ dictKeys m
  · simpa [hk] using h
  · simp only [if_neg hk]
    exact List.Nodup.append h (List.nodup_singleton k)
      (by simpa [List.disjoint_singleton] using hk)

theorem dictFind?_isSome_iff {α : Type} (m : PyDict α) (t : Tag) :
    (dictFind? m t).isSome ↔ t ∈ dictKeys m := by
  induction m with
  | nil => simp [dictFind?, dictKeys]
  | cons e rest ih =>
    rcases e with ⟨k0, v0⟩
    by_cases h0 : k0 = t
    · simp [dictFind?, dictKeys, h0]
    · have h0' : ¬ t = k0 := fun h => h0 h.symm
      simp [dictFind?, dictKeys, h0, h0', ih]

theorem dictFind?_eq_none_of_not_mem {α : Type} (m : PyDict α) (t : Tag)
    (h : t ∉ dictKeys m) : dictFind? m t = none := by
  have := (dictFind?_isSome_iff m t).not.mpr h
  cases hf : dictFind? m t with
  | none => rfl
  | some v => exact absurd (by simp [hf]) this

theorem dictFind?_filterKeys {α : Type} (p : Tag → Bool) (m : PyDict α) (t : Tag) :
    dictFind? (dictFilterKeys p m) t =
      if p t then dictFind? m t else none := by
  induction m with
  | nil => simp [dictFilterKeys, dictFind?]
  | cons e rest ih =>
    rcases e with ⟨k0, v0⟩
    by_cases h0 : k0 = t
    · subst h0
      by_cases hp : p k0
      · simp [dictFilterKeys, dictFind?, hp] at *
      · simp [dictFilterKeys, dictFind?, hp] at *
        simpa [dictFilterKeys, hp] using ih
    · by_cases hp : p k0
      · simp only [dictFilterKeys, List.filter_cons, hp] at *
        simp [dictFind?, h0, ih]
      · simp only [dictFilterKeys, List.filter_cons] at *
        simp only [hp]
        simp [dictFind?, h0, ih]

theorem mem_dictKeys_dictSet {α : Type} (m : PyDict α) (k t : Tag) (v : α) :
    t ∈ dictKeys (dictSet m k v) ↔ t = k ∨ t ∈ dictKeys m := by
  induction m with
  | nil => simp [dictSet, dictKeys]
  | cons e rest ih =>
    rcases e with ⟨k0, v0⟩
    by_cases h0 : k0 = k
    · subst h0
      simp [dictSet, dictKeys]
    · simp [dictSet, dictKeys, h0] at *
      rw [ih]
      tauto

theorem dictKeys_filter_sublist {α : Type} (p : Tag × α → Bool) (m : PyDict α) :
    (dictKeys (m.filter p)).Sublist (dictKeys m) := by
  unfold dictKeys
  exact List.Sublist.map (fun e => e.1) (List.filter_sublist m)

theorem dictKeys_filterKeys_sublist {α : Type} (p : Tag → Bool) (m : PyDict α) :
    (dictKeys (dictFilterKeys p m)).Sublist (dictKeys m) :=
  dictKeys_filter_sublist (fun e => p e.1) m

theorem dictKeys_nodup_filterKeys {α : Type} (p : Tag → Bool) (m : PyDict α)
    (h : (dictKeys m).Nodup) : (dictKeys (dictFilterKeys p m)).Nodup :=
  List.Nodup.sublist (dictKeys_filterKeys_sublist p m) h

theorem dictFind?_dictUpdate {α : Type} (m other : PyDict α) (t : Tag)
    (hnd : (dictKeys other).Nodup) :
    dictFind? (dictUpdate m other) t =
      (dictFind? other t).or (dictFind? m t) := by
  induction other generalizing m with
  | nil => simp [dictUpdate, dictFind?]
  | cons e rest ih =>
    rcases e with ⟨k0, v0⟩
    simp only [dictKeys, List.map_cons, List.nodup_cons] at hnd
    obtain ⟨hk0, hrest⟩ := hnd
    by_cases h0 : k0 = t
    · subst h0
      have hnone : dictFind? rest k0 = none :=
        dictFind?_eq_none_of_not_mem rest k0 hk0
      simp only [dictUpdate]
      rw [ih (dictSet m k0 v0) hrest]
      simp [dictFind?, hnone, dictFind?_dictSet_self]
    · simp only [dictUpdate]
      rw [ih (dictSet m k0 v0) hrest]
      rw [dictFind?_dictSet_ne m k0 t v0 h0]
      simp [dictFind?, h0]

theorem mem_dictKeys_dictUpdate {α : Type} (m other : PyDict α) (t : Tag) :
    t ∈ dictKeys (dictUpdate m other) ↔ t ∈ dictKeys m ∨ t ∈ dictKeys other := by
  induction other generalizing m with
  | nil => simp [dictUpdate, dictKeys]
  | cons e rest ih =>
    rcases e with ⟨k0, v0⟩
    simp only [dictUpdate]
    rw [ih (dictSet m k0 v0)]
    rw [mem_dictKeys_dictSet]
    simp only [dictKeys, List.map_cons, List.mem_cons]
    tauto

theorem dictKeys_nodup_dictUpdate {α : Type} (m other : PyDict α)
    (h : (dictKeys m).Nodup) : (dictKeys (dictUpdate m other)).Nodup := by
  induction other generalizing m with
  | nil => simpa [dictUpdate]
  | cons e rest ih =>
    rcases e with ⟨k0, v0⟩
    simp only [dictUpdate]
    exact ih (dictSet m k0 v0) (dictKeys_nodup_dictSet m k0 v0 h)

theorem mem_dictKeys_filter_iff {α : Type} (m : PyDict α) (q : α → Bool) (t : Tag)
    (hnd : (dictKeys m).Nodup) :
    t ∈ dictKeys (m.filter (fun p => q p.2)) ↔
      ∃ v, dictFind? m t = some v ∧ q v := by
  induction m with
  | nil => simp [dictKeys, dictFind?]
  | cons e rest ih =>
    rcases e with ⟨k0, v0⟩
    simp only [dictKeys, List.map_cons, List.nodup_cons] at hnd
    obtain ⟨hk0, hrest⟩ := hnd
    have ih' := ih (by simpa [dictKeys] using hrest)
    by_cases h0 : k0 = t
    · subst h0
      cases hq : q v0 with
      | true =>
        simp [dictKeys, dictFind?, List.filter_cons, hq]
      | false =>
        simp only [List.filter_cons, hq]
        simp only [Bool.false_eq_true, if_false]
        constructor
        · intro hmem
          exfalso
          have := List.Sublist.mem hmem (dictKeys_filter_sublist (fun p => q p.2) rest)
          exact hk0 (by simpa [dictKeys] using this)
        · rintro ⟨v, hv, hqv⟩
          simp [dictFind?] at hv
          subst hv
          simp [hq] at hqv
    · cases hq : q v0 with
      | true =>
        simp only [List.filter_cons, hq, if_true, dictKeys, List.map_cons,
          List.mem_cons]
        simp only [dictKeys] at ih'
        rw [ih']
        constructor
        · rintro (h | h)
          · exact absurd h.symm h0
          · obtain ⟨v, hv, hqv⟩ := h
            exact ⟨v, by simp [dictFind?, h0, hv], hqv⟩
        · rintro ⟨v, hv, hqv⟩
          right
          refine ⟨v, ?_, hqv⟩
          simpa [dictFind?, h0] using hv
      | false =>
        simp only [List.filter_cons, hq, Bool.false_eq_true, if_false]
        simp only [dictKeys] at ih' ⊢
        rw [ih']
        constructor
        · rintro ⟨v, hv, hqv⟩
          exact ⟨v, by simp [dictFind?, h0, hv], hqv⟩
        · rintro ⟨v, hv, hqv⟩
          refine ⟨v, ?_, hqv⟩
          simpa [dictFind?, h0] using hv

theorem addInputs_origin (l : List Tag) (scope : Scope) (t : Tag) (r : TagRef)
    (h : dictFind? scope t = some r) :
    ∃ n, dictFind? (addInputs scope l) t = some (r.1, n) := by
  induction l generalizing scope r with
  | nil => exact ⟨r.2, by simpa [addInputs] using h⟩
  | cons u rest ih =>
    by_cases hu : u = t
    · subst hu
      simp only [addInputs, h]
      exact ih (dictSet scope u (r.1, r.2 + 1)) (r.1, r.2 + 1)
        (dictFind?_dictSet_self scope u (r.1, r.2 + 1))
    · cases hf : dictFind? scope u with
      | none =>
        simp only [addInputs, hf]
        exact ih _ r (by rw [dictFind?_dictSet_ne _ _ _ _ hu]; exact h)
      | some s =>
        simp only [addInputs, hf]
        exact ih _ r (by rw [dictFind?_dictSet_ne _ _ _ _ hu]; exact h)

theorem addInputs_keys_nodup (l : List Tag) (scope : Scope)
    (h : (dictKeys scope).Nodup) : (dictKeys (addInputs scope l)).Nodup := by
  induction l generalizing scope with
  | nil => simpa [addInputs] using h
  | cons u rest ih =>
    cases hf : dictFind? scope u with
    | none =>
      simp only [addInputs, hf]
      exact ih _ (dictKeys_nodup_dictSet _ _ _ h)
    | some s =>
      simp only [addInputs, hf]
      exact ih _ (dictKeys_nodup_dictSet _ _ _ h)

theorem addOutputs_preserves (i : Int) (l : List Tag) :
    ∀ (scope out : Scope), addOutputs i scope l = .ok out →
    ∀ (t : Tag) (r : TagRef), dictFind? scope t = some r →
    dictFind? out t = some r := by
  induction l with
  | nil =>
    intro scope out hok t r h
    simp only [addOutputs] at hok
    cases hok
    exact h
  | cons u rest ih =>
    intro scope out hok t r h
    by_cases hu : (dictFind? scope u).isSome
    · simp [addOutputs, hu] at hok
    · simp only [addOutputs, if_neg hu] at hok
      have hut : u ≠ t := by
        intro he
        subst he
        rw [h] at hu
        simp at hu
      exact ih _ _ hok t r (by rw [dictFind?_dictSet_ne _ _ _ _ hut]; exact h)

theorem addOutputs_mem (i : Int) (l : List Tag) (scope out : Scope)
    (hok : addOutputs i scope l = .ok out) (t : Tag) (ht : t ∈ l) :
    dictFind? out t = some (i, 0) := by
  induction l generalizing scope with
  | nil => cases ht
  | cons u rest ih =>
    by_cases hu : (dictFind? scope u).isSome
    · simp [addOutputs, hu] at hok
    · simp only [addOutputs, if_neg hu] at hok
      by_cases hut : u = t
      · subst hut
        exact addOutputs_preserves i rest _ _ hok u (i, 0)
          (dictFind?_dictSet_self scope u (i, 0))
      · rw [List.mem_cons] at ht
        rcases ht with he | hmem
        · exact absurd he.symm hut
        · exact ih _ hok hmem

theorem addOutputs_keys_nodup (i : Int) (l : List Tag) (scope out : Scope)
    (hok : addOutputs i scope l = .ok out)
    (h : (dictKeys scope).Nodup) : (dictKeys out).Nodup := by
  induction l generalizing scope with
  | nil => simp only [addOutputs] at hok; cases hok; exact h
  | cons u rest ih =>
    by_cases hu : (dictFind? scope u).isSome
    · simp [addOutputs, hu] at hok
    · simp only [addOutputs, if_neg hu] at hok
      exact ih _ hok (dictKeys_nodup_dictSet _ _ _ h)

theorem buildScopeAux_preserves (steps : List StepDef) :
    ∀ (scope out : Scope) (i : Int),
      buildScopeAux scope i steps = .ok out →
      ∀ (t : Tag) (r : TagRef), dictFind? scope t = some r →
      ∃ n, dictFind? out t = some (r.1, n) := by
  induction steps with
  | nil =>
    intro scope out i hok t r h
    simp only [buildScopeAux] at hok
    cases hok
    exact ⟨r.2, h⟩
  | cons step rest ih =>
    intro scope out i hok t r h
    simp only [buildScopeAux, bind, Except.bind] at hok
    cases hout : addOutputs i (addInputs scope step.input_file_set)
        step.output_file_set with
    | error e => rw [hout] at hok; cases hok
    | ok scope2 =>
      rw [hout] at hok
      obtain ⟨n1, h1⟩ := addInputs_origin step.input_file_set scope t r h
      have h2 := addOutputs_preserves i step.output_file_set _ _ hout t (r.1, n1) h1
      exact ih _ _ _ hok t (r.1, n1) h2

theorem buildScopeAux_keys_nodup (steps : List StepDef) :
    ∀ (scope out : Scope) (i : Int),
      buildScopeAux scope i steps = .ok out →
      (dictKeys scope).Nodup → (dictKeys out).Nodup := by
  induction steps with
  | nil =>
    intro scope out i hok h
    simp only [buildScopeAux] at hok
    cases hok
    exact h
  | cons step rest ih =>
    intro scope out i hok h
    simp only [buildScopeAux, bind, Except.bind] at hok
    cases hout : addOutputs i (addInputs scope step.input_file_set)
        step.output_file_set with
    | error e => rw [hout] at hok; cases hok
    | ok scope2 =>
      rw [hout] at hok
      exact ih _ _ _ hok (addOutputs_keys_nodup i _ _ _ hout
        (addInputs_keys_nodup _ _ h))

theorem buildScopeAux_external_not_output (steps : List StepDef) :
    ∀ (scope out : Scope) (i : Int),
      buildScopeAux scope i steps = .ok out →
      ∀ (t : Tag) (n : Nat), dictFind? out t = some (-1, n) → 0 ≤ i →
      ∀ s ∈ steps, t ∉ s.output_file_set := by
  induction steps with
  | nil =>
    intro scope out i hok t n h hi s hs
    cases hs
  | cons step rest ih =>
    intro scope out i hok t n h hi s hs
    simp only [buildScopeAux, bind, Except.bind] at hok
    cases hout : addOutputs i (addInputs scope step.input_file_set)
        step.output_file_set with
    | error e => rw [hout] at hok; cases hok
    | ok scope2 =>
      rw [hout] at hok
      rw [List.mem_cons] at hs
      rcases hs with hs | hs
      · subst hs
        intro hmem
        have h2 := addOutputs_mem i s.output_file_set _ _ hout t hmem
        obtain ⟨n2, h3⟩ := buildScopeAux_preserves rest _ _ _ hok t (i, 0) h2
        have heq := h.symm.trans h3
        simp only [Option.some.injEq, Prod.mk.injEq] at heq
        omega
      · exact ih _ _ _ hok t n h (by omega) s hs

theorem buildLexicalScope_keys_nodup (steps : List StepDef) (scope : Scope)
    (hok : buildLexicalScope steps = .ok scope) : (dictKeys scope).Nodup :=
  buildScopeAux_keys_nodup steps [] scope 0 hok (by simp [dictKeys])

theorem buildLexicalScope_external_not_output (steps : List StepDef)
    (scope : Scope) (hok : buildLexicalScope steps = .ok scope)
    (t : Tag) (n : Nat) (h : dictFind? scope t = some (-1, n)) :
    ∀ s ∈ steps, t ∉ s.output_file_set :=
  buildScopeAux_external_not_output steps [] scope 0 hok t n h (by omega)

/-- Membership in the derived input tag set is exactly an external origin
in the scope. -/
theorem mem_scopeInputs_iff (steps : List StepDef) (scope : Scope)
    (hok : buildLexicalScope steps = .ok scope) (t : Tag) :
    t ∈ scopeInputs scope ↔ ∃ n, dictFind? scope t = some (-1, n) := by
  have hnd := buildLexicalScope_keys_nodup steps scope hok
  unfold scopeInputs
  rw [mem_dictKeys_filter_iff scope (fun r => decide (r.1 = -1)) t hnd]
  constructor
  · rintro ⟨v, hv, hq⟩
    simp at hq
    exact ⟨v.2, by rw [hv, ← hq]⟩
  · rintro ⟨n, hn⟩
    exact ⟨(-1, n), hn, by simp⟩

/-- Membership in the raw output tag set is exactly refCount 0 in the
scope. -/
theorem mem_scopeRawOutputs_iff (steps : List StepDef) (scope : Scope)
    (hok : buildLexicalScope steps = .ok scope) (t : Tag) :
    t ∈ scopeRawOutputs scope ↔ ∃ o, dictFind? scope t = some (o, 0) := by
  have hnd := buildLexicalScope_keys_nodup steps scope hok
  unfold scopeRawOutputs
  rw [mem_dictKeys_filter_iff scope (fun r => decide (r.2 = 0)) t hnd]
  constructor
  · rintro ⟨v, hv, hq⟩
    simp at hq
    exact ⟨v.1, by rw [hv, ← hq]⟩
  · rintro ⟨o, ho⟩
    exact ⟨(o, 0), ho, by simp⟩

/-- The non-input tags of a resolved scope (set(lexical_scope) minus the
input set). -/
def nonInputTags (scope : Scope) : List Tag :=
  (dictKeys scope).filter (fun t => decide (t ∉ scopeInputs scope))

/-- The exposed intermediates rejected by the validation (the elements of
exposed_intermediates minus non_inputs). -/
def offendingExposed (scope : Scope) (exposed : List Tag) : List Tag :=
  exposed.filter (fun t => decide (t ∉ nonInputTags scope))

/-- Full evaluation of sequence() on a list of at least two steps whose
lexical scope resolves: it fails on a nonempty offending-exposed set and
otherwise returns the composite with the derived interface. -/
theorem sequence_eval (s1 s2 : StepDef) (rest : List StepDef)
    (exposed : List Tag) (scope : Scope)
    (hscope : buildLexicalScope (s1 :: s2 :: rest) = .ok scope) :
    sequence (s1 :: s2 :: rest) exposed =
      if 0 < (offendingExposed scope exposed).length then
        .error (.bakerError ("Attempting to expose non-generated intermediate(s): "
          ++ pyJoin ", " exposed))
      else
        .ok (.composite (scopeInputs scope)
          ((scopeRawOutputs scope).union exposed) (s1 :: s2 :: rest)) := by
  by_cases hoff : 0 < (offendingExposed scope exposed).length
  · rw [if_pos hoff]
    simp only [sequence, determineSequenceInterface, hscope, bind, Except.bind]
    rw [if_pos (by simpa [offendingExposed, nonInputTags] using hoff)]
  · rw [if_neg hoff]
    simp only [sequence, determineSequenceInterface, hscope, bind, Except.bind]
    rw [if_neg (by simpa [offendingExposed, nonInputTags] using hoff)]
    rfl

/-! ### Substring occurrence, for statements about error messages -/

/-- The needle occurs at the very start of the hay. -/
def segAt : List Char → List Char → Bool
  | [], _ => true
  | _ :: _, [] => false
  | a :: as, b :: bs => decide (a = b) && segAt as bs

/-- The needle occurs somewhere in the hay. -/
def containsSeg (needle : List Char) : List Char → Bool
  | [] => needle.isEmpty
  | b :: bs => segAt needle (b :: bs) || containsSeg needle bs

theorem strData_append (a b : String) : (a ++ b).data = a.data ++ b.data := rfl

theorem segAt_append_self (n rest : List Char) : segAt n (n ++ rest) = true := by
  induction n with
  | nil => simp [segAt]
  | cons a as ih => simp [segAt, ih]

theorem containsSeg_of_segAt (n h : List Char) (hs : segAt n h = true) :
    containsSeg n h = true := by
  cases h with
  | nil =>
    cases n with
    | nil => simp [containsSeg]
    | cons a as => simp [segAt] at hs
  | cons b bs => simp [containsSeg, hs]

theorem containsSeg_self_append (n rest : List Char) :
    containsSeg n (n ++ rest) = true :=
  containsSeg_of_segAt n (n ++ rest) (segAt_append_self n rest)

theorem containsSeg_prepend (n pre h : List Char)
    (hc : containsSeg n h = true) : containsSeg n (pre ++ h) = true := by
  induction pre with
  | nil => simpa using hc
  | cons c cs ih => simp [containsSeg, ih]

theorem segAt_append_ext (n : List Char) :
    ∀ (h post : List Char), segAt n h = true → segAt n (h ++ post) = true := by
  induction n with
  | nil => intro h post _; simp [segAt]
  | cons a as ih =>
    intro h post hs
    cases h with
    | nil => simp [segAt] at hs
    | cons b bs =>
      simp only [segAt, Bool.and_eq_true, decide_eq_true_eq] at hs
      simp only [List.cons_append, segAt, Bool.and_eq_true, decide_eq_true_eq]
      exact ⟨hs.1, ih bs post hs.2⟩

theorem containsSeg_append_ext (n : List Char) :
    ∀ (h post : List Char), containsSeg n h = true →
      containsSeg n (h ++ post) = true := by
  intro h
  induction h with
  | nil =>
    intro post hc
    simp only [containsSeg, List.isEmpty_iff] at hc
    subst hc
    cases post with
    | nil => simp [containsSeg]
    | cons b bs => simp [containsSeg, segAt]
  | cons b bs ih =>
    intro post hc
    simp only [containsSeg, Bool.or_eq_true] at hc
    rcases hc with hc | hc
    · exact containsSeg_of_segAt _ _ (segAt_append_ext n (b :: bs) post hc)
    · simp only [List.cons_append, containsSeg, Bool.or_eq_true]
      exact Or.inr (ih post hc)

theorem mem_pyJoin_contains (sep : String) (l : List String) (t : String)
    (ht : t ∈ l) : containsSeg t.data (pyJoin sep l).data = true := by
  induction l with
  | nil => cases ht
  | cons x rest ih =>
    rw [List.mem_cons] at ht
    cases rest with
    | nil =>
      rcases ht with he | he
      · subst he
        have := containsSeg_self_append t.data []
        simpa [pyJoin] using this
      · cases he
    | cons y more =>
      rcases ht with he | he
      · subst he
        show containsSeg t.data (t ++ sep ++ pyJoin sep (y :: more)).data = true
        rw [strData_append, strData_append, List.append_assoc]
        exact containsSeg_self_append t.data _
      · show containsSeg t.data (x ++ sep ++ pyJoin sep (y :: more)).data = true
        rw [strData_append]
        exact containsSeg_prepend t.data _ _ (ih he)

/-! ### Claim theorems: composition-time interface and validation -/

/-- Step A of the worked example of the spec: inputs {raw}, outputs
{clean}. -/
def stepA : StepDef := ⟨["raw"], ["clean"]⟩

/-- Step B of the worked example of the spec: inputs {clean}, outputs
{report}. -/
def stepB : StepDef := ⟨["clean"], ["report"]⟩

/-- Successful composition of at least two steps determines the composite
interface from the resolved scope: inputs are the external-origin tags,
outputs the refCount-0 tags together with the exposed intermediates. -/
theorem sequence_ok_interface (steps : List StepDef)
    (exposed : List Tag) (res : SequenceResult) (hlen : 2 ≤ steps.length)
    (hseq : sequence steps exposed = .ok res) :
    ∃ scope, buildLexicalScope steps = .ok scope ∧
      res = .composite (scopeInputs scope)
        ((scopeRawOutputs scope).union exposed) steps ∧
      (∀ t, t ∈ scopeInputs scope ↔ ∃ n, dictFind? scope t = some (-1, n)) ∧
      (∀ t, t ∈ (scopeRawOutputs scope).union exposed ↔
        (∃ o, dictFind? scope t = some (o, 0)) ∨ t ∈ exposed) := by
  match steps, hlen with
  | s1 :: s2 :: rest, _ =>
    cases hscope : buildLexicalScope (s1 :: s2 :: rest) with
    | error e =>
      simp [sequence, hscope, bind, Except.bind] at hseq
    | ok scope =>
      refine ⟨scope, rfl, ?_, ?_, ?_⟩
      · rw [sequence_eval s1 s2 rest exposed scope hscope] at hseq
        by_cases hoff : 0 < (offendingExposed scope exposed).length
        · rw [if_pos hoff] at hseq
          cases hseq
        · rw [if_neg hoff] at hseq
          exact (Except.ok.inj hseq).symm
      · exact mem_scopeInputs_iff _ scope hscope
      · intro t
        have hu : (scopeRawOutputs scope).union exposed =
            scopeRawOutputs scope ∪ exposed := rfl
        rw [hu, List.mem_union_iff, mem_scopeRawOutputs_iff _ scope hscope]

/-- C1: for every list of at least two steps that composes successfully,
the composite declares as inputs exactly the tags with origin EXTERNAL
(-1) in the resolved scope, and as outputs exactly the tags with
refCount 0 together with the exposed intermediates. -/
theorem seq_interface_characterization (steps : List StepDef)
    (exposed : List Tag) (res : SequenceResult) (hlen : 2 ≤ steps.length)
    (hseq : sequence steps exposed = .ok res) :
    ∃ scope, buildLexicalScope steps = .ok scope ∧
      res = .composite (scopeInputs scope)
        ((scopeRawOutputs scope).union exposed) steps ∧
      (∀ t, t ∈ scopeInputs scope ↔ ∃ n, dictFind? scope t = some (-1, n)) ∧
      (∀ t, t ∈ (scopeRawOutputs scope).union exposed ↔
        (∃ o, dictFind? scope t = some (o, 0)) ∨ t ∈ exposed) :=
  sequence_ok_interface steps exposed res hlen hseq

/-- Witness for C1 at the worked example: sequence([A, B]) composes to
input set {raw} and output set {report}. -/
theorem seq_interface_characterization_witness :
    (2 ≤ [stepA, stepB].length ∧
      sequence [stepA, stepB] [] =
        .ok (.composite ["raw"] ["report"] [stepA, stepB])) ∧
    (∃ scope, buildLexicalScope [stepA, stepB] = .ok scope ∧
      SequenceResult.composite ["raw"] ["report"] [stepA, stepB] =
        .composite (scopeInputs scope)
          ((scopeRawOutputs scope).union []) [stepA, stepB] ∧
      (∀ t, t ∈ scopeInputs scope ↔ ∃ n, dictFind? scope t = some (-1, n)) ∧
      (∀ t, t ∈ (scopeRawOutputs scope).union ([] : List Tag) ↔
        (∃ o, dictFind? scope t = some (o, 0)) ∨ t ∈ ([] : List Tag))) :=
  ⟨⟨by decide, by decide⟩,
    seq_interface_characterization [stepA, stepB] []
      (.composite ["raw"] ["report"] [stepA, stepB]) (by decide) (by decide)⟩

theorem mem_offendingExposed_iff (steps : List StepDef) (scope : Scope)
    (hok : buildLexicalScope steps = .ok scope) (exposed : List Tag) (t : Tag) :
    t ∈ offendingExposed scope exposed ↔
      t ∈ exposed ∧
        (dictFind? scope t = none ∨ ∃ n, dictFind? scope t = some (-1, n)) := by
  have hmo : t ∈ offendingExposed scope exposed ↔
      t ∈ exposed ∧ ¬ t ∈ nonInputTags scope := by
    simp [offendingExposed, List.mem_filter]
  have hni : t ∈ nonInputTags scope ↔
      t ∈ dictKeys scope ∧ ¬ t ∈ scopeInputs scope := by
    simp [nonInputTags, List.mem_filter]
  rw [hmo, hni, ← dictFind?_isSome_iff, mem_scopeInputs_iff steps scope hok]
  constructor
  · rintro ⟨hmem, hno⟩
    refine ⟨hmem, ?_⟩
    by_cases hs : (dictFind? scope t).isSome
    · right
      by_contra hne
      exact hno ⟨hs, hne⟩
    · left
      exact Option.not_isSome_iff_eq_none.mp hs
  · rintro ⟨hmem, hcase⟩
    refine ⟨hmem, ?_⟩
    rintro ⟨hs, hnext⟩
    rcases hcase with hnone | hext
    · rw [hnone] at hs
      simp at hs
    · exact hnext hext

/-- C7: for a list of at least two steps with a resolved scope,
composition fails exactly when some exposed intermediate is absent from
the scope or is a pure external input, and the error is a BakerError
whose message contains every offending tag. -/
theorem expose_validation_characterization (s1 s2 : StepDef)
    (rest : List StepDef) (exposed : List Tag) (scope : Scope)
    (hscope : buildLexicalScope (s1 :: s2 :: rest) = .ok scope) :
    ((∃ e, sequence (s1 :: s2 :: rest) exposed = .error e) ↔
      ∃ t ∈ exposed,
        dictFind? scope t = none ∨ ∃ n, dictFind? scope t = some (-1, n)) ∧
    (∀ e, sequence (s1 :: s2 :: rest) exposed = .error e →
      ∃ msg, e = .bakerError msg ∧
        ∀ t ∈ exposed,
          (dictFind? scope t = none ∨ ∃ n, dictFind? scope t = some (-1, n)) →
          containsSeg t.data msg.data = true) := by
  have heval := sequence_eval s1 s2 rest exposed scope hscope
  have hchar := mem_offendingExposed_iff (s1 :: s2 :: rest) scope hscope exposed
  constructor
  · constructor
    · rintro ⟨e, he⟩
      rw [heval] at he
      by_cases hoff : 0 < (offendingExposed scope exposed).length
      · obtain ⟨t, ht⟩ := List.exists_mem_of_length_pos hoff
        obtain ⟨h1, h2⟩ := (hchar t).mp ht
        exact ⟨t, h1, h2⟩
      · rw [if_neg hoff] at he
        cases he
    · rintro ⟨t, hmem, hcase⟩
      have hoff : t ∈ offendingExposed scope exposed := (hchar t).mpr ⟨hmem, hcase⟩
      have hlen : 0 < (offendingExposed scope exposed).length :=
        List.length_pos_of_mem hoff
      rw [heval, if_pos hlen]
      exact ⟨_, rfl⟩
  · intro e he
    rw [heval] at he
    by_cases hoff : 0 < (offendingExposed scope exposed).length
    · rw [if_pos hoff] at he
      refine ⟨"Attempting to expose non-generated intermediate(s): "
        ++ pyJoin ", " exposed, (Except.error.inj he).symm, ?_⟩
      intro t hmem _
      rw [strData_append]
      exact containsSeg_prepend t.data _ _ (mem_pyJoin_contains ", " exposed t hmem)
    · rw [if_neg hoff] at he
      cases he

/-- Witness for C7: exposing a tag never produced inside [A, B] raises a
BakerError whose message contains that tag. -/
theorem expose_validation_characterization_witness :
    buildLexicalScope [stepA, stepB] =
      .ok [("raw", (-1, 1)), ("clean", (0, 1)), ("report", (1, 0))] ∧
    ((∃ e, sequence [stepA, stepB] ["nope"] = .error e) ↔
      ∃ t ∈ ["nope"],
        dictFind? [("raw", ((-1 : Int), 1)), ("clean", (0, 1)), ("report", (1, 0))] t
            = none ∨
          ∃ n, dictFind?
            [("raw", ((-1 : Int), 1)), ("clean", (0, 1)), ("report", (1, 0))] t
            = some (-1, n)) ∧
    (∀ e, sequence [stepA, stepB] ["nope"] = .error e →
      ∃ msg, e = .bakerError msg ∧
        ∀ t ∈ ["nope"],
          (dictFind? [("raw", ((-1 : Int), 1)), ("clean", (0, 1)), ("report", (1, 0))] t
              = none ∨
            ∃ n, dictFind?
              [("raw", ((-1 : Int), 1)), ("clean", (0, 1)), ("report", (1, 0))] t
              = some (-1, n)) →
          containsSeg t.data msg.data = true) :=
  ⟨by decide,
    expose_validation_characterization stepA stepB [] ["nope"]
      [("raw", (-1, 1)), ("clean", (0, 1)), ("report", (1, 0))] (by decide)⟩

/-- C8: a one-step sequence returns that very step with no further
validation (any exposed set is accepted), and an empty sequence always
fails with the composition error. -/
theorem sequence_single_and_empty (s : StepDef) (exposed : List Tag) :
    sequence [s] exposed = .ok (.single s) ∧
    sequence [] exposed = .error (.bakerError "Cannot sequence fewer than 1 event") :=
  ⟨rfl, rfl⟩

/-- C6 (divergence witness): two steps that both output tag x make
composition fail before execution, but with the base BakerError, not the
named TagConflictError specialization; the message does name x. -/
theorem dup_output_raises_plain_bakerError :
    sequence [⟨[], ["x"]⟩, ⟨[], ["x"]⟩] [] =
      .error (.bakerError "Multiple steps in sequence generate output tag x") ∧
    containsSeg "x".data "Multiple steps in sequence generate output tag x".data
      = true ∧
    ∀ m : String,
      sequence [⟨[], ["x"]⟩, ⟨[], ["x"]⟩] [] ≠ .error (.tagConflictError m) := by
  refine ⟨by decide, by decide, ?_⟩
  intro m h
  rw [show sequence [(⟨[], ["x"]⟩ : StepDef), ⟨[], ["x"]⟩] [] =
    .error (.bakerError "Multiple steps in sequence generate output tag x")
    from by decide] at h
  cases h

/-! ### Planner lemmas -/

theorem mem_dictKeys_filterKeys {α : Type} (p : Tag → Bool) (m : PyDict α)
    (t : Tag) :
    t ∈ dictKeys (dictFilterKeys p m) ↔ t ∈ dictKeys m ∧ p t := by
  rw [← dictFind?_isSome_iff, ← dictFind?_isSome_iff, dictFind?_filterKeys]
  by_cases hp : p t
  · simp [hp]
  · simp [hp]

theorem allocTemps_keys (sid : String) (uuids : Nat → String) :
    ∀ (c : Nat) (l : List Tag), dictKeys (allocTemps sid uuids c l).1 = l := by
  intro c l
  induction l generalizing c with
  | nil => simp [allocTemps, dictKeys]
  | cons u rest ih =>
    show (u :: dictKeys (allocTemps sid uuids (c + 1) rest).1 : List Tag) = u :: rest
    rw [ih (c + 1)]

theorem allocTemps_mem (sid : String) (uuids : Nat → String) :
    ∀ (c : Nat) (l : List Tag) (t : Tag), t ∈ l →
      ∃ k, dictFind? (allocTemps sid uuids c l).1 t =
        some (generateTempFilename sid uuids k) := by
  intro c l
  induction l generalizing c with
  | nil => intro t ht; cases ht
  | cons u rest ih =>
    intro t ht
    by_cases hu : u = t
    · subst hu
      exact ⟨c, by simp [allocTemps, dictFind?]⟩
    · rw [List.mem_cons] at ht
      rcases ht with he | hmem
      · exact absurd he.symm hu
      · obtain ⟨k, hk⟩ := ih (c + 1) t hmem
        exact ⟨k, by simpa [allocTemps, dictFind?, hu] using hk⟩

theorem planOne_output_paths_isSome_iff (seqIn seqOut : PathMap)
    (seqOutSet : List Tag) (sid : String) (uuids : Nat → String)
    (step : StepDef) (prev : PathMap) (c : Nat) (t : Tag) :
    (dictFind?
        (planOne seqIn seqOut seqOutSet sid uuids step prev c).1.output_paths
        t).isSome ↔
      (t ∈ step.output_file_set ∧ t ∉ seqOutSet) ∨
        (t ∈ dictKeys seqOut ∧ t ∈ step.output_file_set) := by
  show (dictFind? (dictUpdate _ _) t).isSome ↔ _
  rw [dictFind?_isSome_iff, mem_dictKeys_dictUpdate, allocTemps_keys,
    mem_dictKeys_filterKeys]
  simp [List.mem_filter]

theorem planOne_output_paths_seq (seqIn seqOut : PathMap)
    (seqOutSet : List Tag) (sid : String) (uuids : Nat → String)
    (step : StepDef) (prev : PathMap) (c : Nat) (t : Tag)
    (hndO : (dictKeys seqOut).Nodup)
    (hmem : t ∈ step.output_file_set)
    (hsome : (dictFind? seqOut t).isSome) :
    dictFind?
        (planOne seqIn seqOut seqOutSet sid uuids step prev c).1.output_paths t
      = dictFind? seqOut t := by
  show dictFind? (dictUpdate _ _) t = _
  rw [dictFind?_dictUpdate _ _ t (dictKeys_nodup_filterKeys _ _ hndO)]
  rw [dictFind?_filterKeys]
  rw [if_pos (by simpa using hmem)]
  obtain ⟨v, hv⟩ := Option.isSome_iff_exists.mp hsome
  rw [hv]
  rfl

theorem planOne_output_paths_temp (seqIn seqOut : PathMap)
    (seqOutSet : List Tag) (sid : String) (uuids : Nat → String)
    (step : StepDef) (prev : PathMap) (c : Nat) (t : Tag)
    (hndO : (dictKeys seqOut).Nodup)
    (hmem : t ∈ step.output_file_set)
    (hnot : t ∉ seqOutSet)
    (hnone : dictFind? seqOut t = none) :
    ∃ k, dictFind?
        (planOne seqIn seqOut seqOutSet sid uuids step prev c).1.output_paths t
      = some (generateTempFilename sid uuids k) := by
  have hgen := allocTemps_mem sid uuids c
    (step.output_file_set.filter (fun u => decide (u ∉ seqOutSet))) t
    (by rw [List.mem_filter]; exact ⟨hmem, by simpa using hnot⟩)
  obtain ⟨k, hk⟩ := hgen
  refine ⟨k, ?_⟩
  show dictFind? (dictUpdate _ _) t = _
  rw [dictFind?_dictUpdate _ _ t (dictKeys_nodup_filterKeys _ _ hndO)]
  rw [dictFind?_filterKeys]
  rw [if_pos (by simpa using hmem), hnone]
  simpa using hk

theorem planOne_output_keys_nodup (seqIn seqOut : PathMap)
    (seqOutSet : List Tag) (sid : String) (uuids : Nat → String)
    (step : StepDef) (prev : PathMap) (c : Nat)
    (hstep : step.output_file_set.Nodup) :
    (dictKeys
        (planOne seqIn seqOut seqOutSet sid uuids step prev c).1.output_paths).Nodup := by
  show (dictKeys (dictUpdate _ _)).Nodup
  apply dictKeys_nodup_dictUpdate
  rw [allocTemps_keys]
  exact List.Nodup.filter _ hstep

theorem planOne_input_paths_eval (seqIn seqOut : PathMap)
    (seqOutSet : List Tag) (sid : String) (uuids : Nat → String)
    (step : StepDef) (prev : PathMap) (c : Nat) (t : Tag)
    (hndP : (dictKeys prev).Nodup)
    (hmem : t ∈ step.input_file_set) :
    dictFind?
        (planOne seqIn seqOut seqOutSet sid uuids step prev c).1.input_paths t
      = (dictFind? prev t).or (dictFind? seqIn t) := by
  show dictFind? (dictUpdate _ _) t = _
  rw [dictFind?_dictUpdate _ _ t (dictKeys_nodup_filterKeys _ _ hndP)]
  rw [dictFind?_filterKeys, dictFind?_filterKeys]
  rw [if_pos (by simpa using hmem), if_pos (by simpa using hmem)]

/-- The combined invariant of the phase-1 planning loop: lengths agree;
output paths use the caller path for sequence-level output tags and fresh
temp paths otherwise, and cover only the step's own outputs; the first
step resolves inputs against the incoming prev map, and each later step
against the previous step's outputs, external paths taking priority. -/
theorem planAux_spec (seqIn seqOut : PathMap) (seqOutSet : List Tag)
    (sid : String) (uuids : Nat → String)
    (hndO : (dictKeys seqOut).Nodup)
    (hOutDom : ∀ t, (dictFind? seqOut t).isSome ↔ t ∈ seqOutSet) :
    ∀ (steps : List StepDef) (prev : PathMap) (c : Nat),
      (∀ s ∈ steps, s.output_file_set.Nodup) →
      (∀ t, (dictFind? seqIn t).isSome → ∀ s ∈ steps, t ∉ s.output_file_set) →
      (dictKeys prev).Nodup →
      (∀ t, (dictFind? seqIn t).isSome → dictFind? prev t = none) →
      ((planAux seqIn seqOut seqOutSet sid uuids steps prev c).length
          = steps.length) ∧
      (∀ (i : Nat) (pl : PlannedStep) (st : StepDef),
        (planAux seqIn seqOut seqOutSet sid uuids steps prev c)[i]? = some pl →
        steps[i]? = some st →
        (∀ t ∈ st.output_file_set, t ∈ seqOutSet →
          dictFind? pl.output_paths t = dictFind? seqOut t) ∧
        (∀ t ∈ st.output_file_set, t ∉ seqOutSet →
          ∃ k, dictFind? pl.output_paths t =
            some (generateTempFilename sid uuids k)) ∧
        (∀ t, (dictFind? pl.output_paths t).isSome → t ∈ st.output_file_set)) ∧
      (∀ (pl0 : PlannedStep) (st0 : StepDef),
        (planAux seqIn seqOut seqOutSet sid uuids steps prev c)[0]? = some pl0 →
        steps[0]? = some st0 →
        ∀ t ∈ st0.input_file_set,
          dictFind? pl0.input_paths t =
            (dictFind? seqIn t).or (dictFind? prev t)) ∧
      (∀ (i : Nat) (pl pl2 : PlannedStep) (st2 : StepDef),
        (planAux seqIn seqOut seqOutSet sid uuids steps prev c)[i]? = some pl →
        (planAux seqIn seqOut seqOutSet sid uuids steps prev c)[i + 1]? = some pl2 →
        steps[i + 1]? = some st2 →
        ∀ t ∈ st2.input_file_set,
          dictFind? pl2.input_paths t =
            (dictFind? seqIn t).or (dictFind? pl.output_paths t)) := by
  intro steps
  induction steps with
  | nil =>
    intro prev c _ _ _ _
    refine ⟨rfl, ?_, ?_, ?_⟩
    · intro i pl st hpl hst
      simp [planAux] at hpl
    · intro pl0 st0 hpl hst
      simp [planAux] at hpl
    · intro i pl pl2 st2 hpl hpl2 hst2
      simp [planAux] at hpl
  | cons step rest ih =>
    intro prev c hnd hext hprevnd hprevdisj
    have hndstep : step.output_file_set.Nodup := hnd step (by simp)
    have hndrest : ∀ s ∈ rest, s.output_file_set.Nodup :=
      fun s hs => hnd s (by simp [hs])
    have hextstep : ∀ t, (dictFind? seqIn t).isSome → t ∉ step.output_file_set :=
      fun t hs => hext t hs step (by simp)
    have hextrest : ∀ t, (dictFind? seqIn t).isSome →
        ∀ s ∈ rest, t ∉ s.output_file_set :=
      fun t hs s hsm => hext t hs s (by simp [hsm])
    set pc := planOne seqIn seqOut seqOutSet sid uuids step prev c with hpc
    have hnd1 : (dictKeys pc.1.output_paths).Nodup :=
      planOne_output_keys_nodup seqIn seqOut seqOutSet sid uuids step prev c hndstep
    have hcov1 := planOne_output_paths_isSome_iff seqIn seqOut seqOutSet sid uuids
      step prev c
    have hdisj1 : ∀ t, (dictFind? seqIn t).isSome →
        dictFind? pc.1.output_paths t = none := by
      intro t hs
      rw [← Option.not_isSome_iff_eq_none]
      intro habs
      rcases (hcov1 t).mp habs with ⟨hmem, _⟩ | ⟨_, hmem⟩
      · exact hextstep t hs hmem
      · exact hextstep t hs hmem
    obtain ⟨ihlen, ih2, ih3, ih4⟩ :=
      ih pc.1.output_paths pc.2 hndrest hextrest hnd1 hdisj1
    have hplanaux : planAux seqIn seqOut seqOutSet sid uuids (step :: rest) prev c
        = pc.1 :: planAux seqIn seqOut seqOutSet sid uuids rest pc.1.output_paths pc.2 :=
      rfl
    refine ⟨?_, ?_, ?_, ?_⟩
    · rw [hplanaux]
      simp [ihlen]
    · intro i pl st hpl hst
      rw [hplanaux] at hpl
      cases i with
      | zero =>
        rw [List.getElem?_cons_zero] at hpl
        rw [List.getElem?_cons_zero] at hst
        have hplv : pl = pc.1 := (Option.some.inj hpl).symm
        have hstv : st = step := (Option.some.inj hst).symm
        rw [hplv, hstv]
        refine ⟨?_, ?_, ?_⟩
        · intro t hmem hin
          exact planOne_output_paths_seq seqIn seqOut seqOutSet sid uuids step
            prev c t hndO hmem ((hOutDom t).mpr hin)
        · intro t hmem hnot
          have hnone : dictFind? seqOut t = none := by
            rw [← Option.not_isSome_iff_eq_none]
            intro hs
            exact hnot ((hOutDom t).mp hs)
          exact planOne_output_paths_temp seqIn seqOut seqOutSet sid uuids step
            prev c t hndO hmem hnot hnone
        · intro t hs
          rcases (hcov1 t).mp hs with ⟨hmem, _⟩ | ⟨_, hmem⟩
          · exact hmem
          · exact hmem
      | succ n =>
        rw [List.getElem?_cons_succ] at hpl
        rw [List.getElem?_cons_succ] at hst
        exact ih2 n pl st hpl hst
    · intro pl0 st0 hpl hst
      rw [hplanaux] at hpl
      rw [List.getElem?_cons_zero] at hpl
      rw [List.getElem?_cons_zero] at hst
      have hplv : pl0 = pc.1 := (Option.some.inj hpl).symm
      have hstv : st0 = step := (Option.some.inj hst).symm
      rw [hplv, hstv]
      intro t hmem
      rw [planOne_input_paths_eval seqIn seqOut seqOutSet sid uuids step prev c t
        hprevnd hmem]
      cases hseqin : dictFind? seqIn t with
      | none =>
        cases hp : dictFind? prev t
        · simp [Option.or, hp]
        · simp [Option.or, hp]
      | some v =>
        rw [hprevdisj t (by simp [hseqin])]
        rfl
    · intro i pl pl2 st2 hpl hpl2 hst2
      rw [hplanaux] at hpl hpl2
      cases i with
      | zero =>
        rw [List.getElem?_cons_zero] at hpl
        rw [List.getElem?_cons_succ] at hpl2
        rw [List.getElem?_cons_succ] at hst2
        have hplv : pl = pc.1 := (Option.some.inj hpl).symm
        rw [hplv]
        exact ih3 pl2 st2 hpl2 hst2
      | succ n =>
        rw [List.getElem?_cons_succ] at hpl
        rw [List.getElem?_cons_succ] at hpl2
        rw [List.getElem?_cons_succ] at hst2
        exact ih4 n pl pl2 st2 hpl hpl2 hst2

/-- In a successfully composed sequence, no sequence-level input tag is
produced by any child step (otherwise scope construction would have raised
the duplicate-producer error). -/
theorem sequence_ok_inputs_not_produced (steps : List StepDef)
    (exposed ins outs : List Tag) (hlen : 2 ≤ steps.length)
    (hseq : sequence steps exposed = .ok (.composite ins outs steps)) :
    ∀ t, t ∈ ins → ∀ s ∈ steps, t ∉ s.output_file_set := by
  obtain ⟨scope, hscope, hres, hins, _⟩ :=
    sequence_ok_interface steps exposed _ hlen hseq
  injection hres with h1 h2 h3
  intro t hmem s hs
  rw [h1] at hmem
  obtain ⟨n, hn⟩ := (hins t).mp hmem
  exact buildLexicalScope_external_not_output steps scope hscope t n hn s hs

/-- C2: in every run of a successfully composed sequence, a step's input
tag resolves to the sequence-level external path when one exists for the
tag, and otherwise to the path produced for it by the immediately
preceding step; the first step sees exactly the external paths. -/
theorem step_input_path_resolution (steps : List StepDef)
    (exposed ins outs : List Tag) (seqIn seqOut : PathMap)
    (sid : String) (uuids : Nat → String)
    (hlen : 2 ≤ steps.length)
    (hseq : sequence steps exposed = .ok (.composite ins outs steps))
    (hndO : (dictKeys seqOut).Nodup)
    (hstepnd : ∀ s ∈ steps, s.output_file_set.Nodup)
    (hInDom : ∀ t, (dictFind? seqIn t).isSome ↔ t ∈ ins)
    (hOutDom : ∀ t, (dictFind? seqOut t).isSome ↔ t ∈ outs) :
    (∀ (pl0 : PlannedStep) (st0 : StepDef),
      (planScript seqIn seqOut outs sid uuids steps)[0]? = some pl0 →
      steps[0]? = some st0 →
      ∀ t ∈ st0.input_file_set,
        dictFind? pl0.input_paths t = dictFind? seqIn t) ∧
    (∀ (i : Nat) (pl pl2 : PlannedStep) (st2 : StepDef),
      (planScript seqIn seqOut outs sid uuids steps)[i]? = some pl →
      (planScript seqIn seqOut outs sid uuids steps)[i + 1]? = some pl2 →
      steps[i + 1]? = some st2 →
      ∀ t ∈ st2.input_file_set,
        dictFind? pl2.input_paths t =
          (dictFind? seqIn t).or (dictFind? pl.output_paths t)) := by
  have hext : ∀ t, (dictFind? seqIn t).isSome →
      ∀ s ∈ steps, t ∉ s.output_file_set := by
    intro t hs
    exact sequence_ok_inputs_not_produced steps exposed ins outs hlen hseq t
      ((hInDom t).mp hs)
  obtain ⟨_, _, h3, h4⟩ := planAux_spec seqIn seqOut outs sid uuids hndO hOutDom
    steps [] 0 hstepnd hext (by simp [dictKeys]) (fun t _ => rfl)
  constructor
  · intro pl0 st0 hpl hst t hmem
    have := h3 pl0 st0 hpl hst t hmem
    rw [this]
    cases dictFind? seqIn t <;> rfl
  · exact h4

/-- Witness for C2 at the worked example of the spec: A is invoked with the
caller's path for raw, and B with the very temp path A was given for
clean. -/
theorem step_input_path_resolution_witness :
    (planScript [("raw", "/d/raw.csv")] [("report", "/d/out.csv")] ["report"]
        "run0" (fun k => toString k) [stepA, stepB] =
      [⟨[("raw", "/d/raw.csv")], [("clean", "/tmp/tinybaker-run0/0")]⟩,
       ⟨[("clean", "/tmp/tinybaker-run0/0")], [("report", "/d/out.csv")]⟩]) ∧
    ((∀ (pl0 : PlannedStep) (st0 : StepDef),
      (planScript [("raw", "/d/raw.csv")] [("report", "/d/out.csv")] ["report"]
        "run0" (fun k => toString k) [stepA, stepB])[0]? = some pl0 →
      [stepA, stepB][0]? = some st0 →
      ∀ t ∈ st0.input_file_set,
        dictFind? pl0.input_paths t = dictFind? [("raw", "/d/raw.csv")] t) ∧
    (∀ (i : Nat) (pl pl2 : PlannedStep) (st2 : StepDef),
      (planScript [("raw", "/d/raw.csv")] [("report", "/d/out.csv")] ["report"]
        "run0" (fun k => toString k) [stepA, stepB])[i]? = some pl →
      (planScript [("raw", "/d/raw.csv")] [("report", "/d/out.csv")] ["report"]
        "run0" (fun k => toString k) [stepA, stepB])[i + 1]? = some pl2 →
      [stepA, stepB][i + 1]? = some st2 →
      ∀ t ∈ st2.input_file_set,
        dictFind? pl2.input_paths t =
          (dictFind? [("raw", "/d/raw.csv")] t).or
            (dictFind? pl.output_paths t))) :=
  ⟨by decide,
    step_input_path_resolution [stepA, stepB] [] ["raw"] ["report"]
      [("raw", "/d/raw.csv")] [("report", "/d/out.csv")] "run0"
      (fun k => toString k) (by decide) (by decide) (by decide) (by decide)
      (by
        intro t
        by_cases h : ("raw" : String) = t
        · subst h
          simp [dictFind?]
        · simp [dictFind?, h]
          intro he
          exact absurd he.symm h)
      (by
        intro t
        by_cases h : ("report" : String) = t
        · subst h
          simp [dictFind?]
        · simp [dictFind?, h]
          intro he
          exact absurd he.symm h)⟩

/-- C3: in every run of a successfully composed sequence, a step's output
tag is given the caller-supplied external path exactly when the tag is in
the sequence's declared output set, and otherwise a freshly allocated
temporary path inside the per-run temporary folder. -/
theorem step_output_path_resolution (steps : List StepDef)
    (exposed ins outs : List Tag) (seqIn seqOut : PathMap)
    (sid : String) (uuids : Nat → String)
    (hlen : 2 ≤ steps.length)
    (hseq : sequence steps exposed = .ok (.composite ins outs steps))
    (hndO : (dictKeys seqOut).Nodup)
    (hstepnd : ∀ s ∈ steps, s.output_file_set.Nodup)
    (hInDom : ∀ t, (dictFind? seqIn t).isSome ↔ t ∈ ins)
    (hOutDom : ∀ t, (dictFind? seqOut t).isSome ↔ t ∈ outs) :
    ∀ (i : Nat) (pl : PlannedStep) (st : StepDef),
      (planScript seqIn seqOut outs sid uuids steps)[i]? = some pl →
      steps[i]? = some st →
      ∀ t ∈ st.output_file_set,
        (t ∈ outs → dictFind? pl.output_paths t = dictFind? seqOut t) ∧
        (t ∉ outs → ∃ k, dictFind? pl.output_paths t =
          some (tempFolder sid ++ "/" ++ uuids k)) := by
  have hext : ∀ t, (dictFind? seqIn t).isSome →
      ∀ s ∈ steps, t ∉ s.output_file_set := by
    intro t hs
    exact sequence_ok_inputs_not_produced steps exposed ins outs hlen hseq t
      ((hInDom t).mp hs)
  obtain ⟨_, h2, _, _⟩ := planAux_spec seqIn seqOut outs sid uuids hndO hOutDom
    steps [] 0 hstepnd hext (by simp [dictKeys]) (fun t _ => rfl)
  intro i pl st hpl hst t hmem
  obtain ⟨h2a, h2b, _⟩ := h2 i pl st hpl hst
  exact ⟨h2a t hmem, h2b t hmem⟩

/-- Witness for C3: composing [A, B] with exposed intermediate clean gives
output set {report, clean}, and at run time clean resolves to the
caller-supplied path, not a temp path. -/
theorem step_output_path_resolution_witness :
    (sequence [stepA, stepB] ["clean"] =
      .ok (.composite ["raw"] ["report", "clean"] [stepA, stepB])) ∧
    (planScript [("raw", "/d/raw.csv")]
        [("report", "/d/out.csv"), ("clean", "/d/clean.csv")]
        ["report", "clean"] "run0" (fun k => toString k) [stepA, stepB] =
      [⟨[("raw", "/d/raw.csv")], [("clean", "/d/clean.csv")]⟩,
       ⟨[("clean", "/d/clean.csv")], [("report", "/d/out.csv")]⟩]) ∧
    (∀ (i : Nat) (pl : PlannedStep) (st : StepDef),
      (planScript [("raw", "/d/raw.csv")]
        [("report", "/d/out.csv"), ("clean", "/d/clean.csv")]
        ["report", "clean"] "run0" (fun k => toString k) [stepA, stepB])[i]?
          = some pl →
      [stepA, stepB][i]? = some st →
      ∀ t ∈ st.output_file_set,
        (t ∈ ["report", "clean"] →
          dictFind? pl.output_paths t =
            dictFind? [("report", "/d/out.csv"), ("clean", "/d/clean.csv")] t) ∧
        (t ∉ ["report", "clean"] →
          ∃ k, dictFind? pl.output_paths t =
            some (tempFolder "run0" ++ "/" ++ (fun j : Nat => toString j) k))) :=
  ⟨by decide, by decide,
    step_output_path_resolution [stepA, stepB] ["clean"] ["raw"]
      ["report", "clean"] [("raw", "/d/raw.csv")]
      [("report", "/d/out.csv"), ("clean", "/d/clean.csv")] "run0"
      (fun k => toString k) (by decide) (by decide) (by decide) (by decide)
      (by
        intro t
        by_cases h : ("raw" : String) = t
        · subst h
          simp [dictFind?]
        · simp [dictFind?, h]
          intro he
          exact absurd he.symm h)
      (by
        intro t
        by_cases h1 : ("report" : String) = t
        · subst h1
          simp [dictFind?]
        · by_cases h2 : ("clean" : String) = t
          · subst h2
            simp [dictFind?, h1]
          · simp [dictFind?, h1, h2]
            exact ⟨fun he => h1 he.symm, fun he => h2 he.symm⟩)⟩

/-- C4 (amended): the planner assigns every step a path for every declared
output tag, and a path for every input tag that is a sequence-level
external input or an output of the immediately preceding step. -/
theorem planner_path_coverage (steps : List StepDef)
    (exposed ins outs : List Tag) (seqIn seqOut : PathMap)
    (sid : String) (uuids : Nat → String)
    (hlen : 2 ≤ steps.length)
    (hseq : sequence steps exposed = .ok (.composite ins outs steps))
    (hndO : (dictKeys seqOut).Nodup)
    (hstepnd : ∀ s ∈ steps, s.output_file_set.Nodup)
    (hInDom : ∀ t, (dictFind? seqIn t).isSome ↔ t ∈ ins)
    (hOutDom : ∀ t, (dictFind? seqOut t).isSome ↔ t ∈ outs) :
    (∀ (i : Nat) (pl : PlannedStep) (st : StepDef),
      (planScript seqIn seqOut outs sid uuids steps)[i]? = some pl →
      steps[i]? = some st →
      ∀ t ∈ st.output_file_set, (dictFind? pl.output_paths t).isSome) ∧
    (∀ (pl0 : PlannedStep) (st0 : StepDef),
      (planScript seqIn seqOut outs sid uuids steps)[0]? = some pl0 →
      steps[0]? = some st0 →
      ∀ t ∈ st0.input_file_set, t ∈ ins →
        (dictFind? pl0.input_paths t).isSome) ∧
    (∀ (i : Nat) (pl pl2 : PlannedStep) (st st2 : StepDef),
      (planScript seqIn seqOut outs sid uuids steps)[i]? = some pl →
      (planScript seqIn seqOut outs sid uuids steps)[i + 1]? = some pl2 →
      steps[i]? = some st →
      steps[i + 1]? = some st2 →
      ∀ t ∈ st2.input_file_set, t ∈ ins ∨ t ∈ st.output_file_set →
        (dictFind? pl2.input_paths t).isSome) := by
  have hext : ∀ t, (dictFind? seqIn t).isSome →
      ∀ s ∈ steps, t ∉ s.output_file_set := by
    intro t hs
    exact sequence_ok_inputs_not_produced steps exposed ins outs hlen hseq t
      ((hInDom t).mp hs)
  obtain ⟨_, h2, h3, h4⟩ := planAux_spec seqIn seqOut outs sid uuids hndO hOutDom
    steps [] 0 hstepnd hext (by simp [dictKeys]) (fun t _ => rfl)
  have houtcov : ∀ (i : Nat) (pl : PlannedStep) (st : StepDef),
      (planScript seqIn seqOut outs sid uuids steps)[i]? = some pl →
      steps[i]? = some st →
      ∀ t ∈ st.output_file_set, (dictFind? pl.output_paths t).isSome := by
    intro i pl st hpl hst t hmem
    obtain ⟨h2a, h2b, _⟩ := h2 i pl st hpl hst
    by_cases hin : t ∈ outs
    · rw [h2a t hmem hin]
      exact (hOutDom t).mpr hin
    · obtain ⟨k, hk⟩ := h2b t hmem hin
      simp [hk]
  refine ⟨houtcov, ?_, ?_⟩
  · intro pl0 st0 hpl hst t hmem hin
    rw [h3 pl0 st0 hpl hst t hmem]
    have hs := (hInDom t).mpr hin
    obtain ⟨v, hv⟩ := Option.isSome_iff_exists.mp hs
    simp [hv, Option.or]
  · intro i pl pl2 st st2 hpl hpl2 hst hst2 t hmem hcase
    rw [h4 i pl pl2 st2 hpl hpl2 hst2 t hmem]
    rcases hcase with hin | hprev
    · have hs := (hInDom t).mpr hin
      obtain ⟨v, hv⟩ := Option.isSome_iff_exists.mp hs
      simp [hv, Option.or]
    · have hs := houtcov i pl st hpl hst t hprev
      obtain ⟨v, hv⟩ := Option.isSome_iff_exists.mp hs
      cases hq : dictFind? seqIn t
      · simp [hq, hv, Option.or]
      · simp [hq, Option.or]

/-- C4 (counterexample): a sequence whose third step consumes tags produced
two and one steps earlier passes composition-time validation, yet the
planner gives that step no path at all for the tag produced two steps
back, since it only consults the immediately preceding step's outputs. -/
theorem planner_missing_multi_step_back_input :
    (sequence [⟨[], ["a"]⟩, ⟨[], ["b"]⟩, ⟨["a", "b"], ["c"]⟩] [] =
      .ok (.composite [] ["c"]
        [⟨[], ["a"]⟩, ⟨[], ["b"]⟩, ⟨["a", "b"], ["c"]⟩])) ∧
    ("a" ∈ (⟨["a", "b"], ["c"]⟩ : StepDef).input_file_set) ∧
    (((planScript [] [("c", "/d/c.csv")] ["c"] "run0" (fun k => toString k)
        [⟨[], ["a"]⟩, ⟨[], ["b"]⟩, ⟨["a", "b"], ["c"]⟩])[2]?).map
      (fun pl => dictFind? pl.input_paths "a") = some none) :=
  ⟨by decide, by decide, by decide⟩

/-- Witness for the amended C4 at the worked example: both steps receive a
path for every declared input and output tag. -/
theorem planner_path_coverage_witness :
    ((∀ (i : Nat) (pl : PlannedStep) (st : StepDef),
      (planScript [("raw", "/d/raw.csv")] [("report", "/d/out.csv")] ["report"]
        "run0" (fun k => toString k) [stepA, stepB])[i]? = some pl →
      [stepA, stepB][i]? = some st →
      ∀ t ∈ st.output_file_set, (dictFind? pl.output_paths t).isSome) ∧
    (∀ (pl0 : PlannedStep) (st0 : StepDef),
      (planScript [("raw", "/d/raw.csv")] [("report", "/d/out.csv")] ["report"]
        "run0" (fun k => toString k) [stepA, stepB])[0]? = some pl0 →
      [stepA, stepB][0]? = some st0 →
      ∀ t ∈ st0.input_file_set, t ∈ ["raw"] →
        (dictFind? pl0.input_paths t).isSome) ∧
    (∀ (i : Nat) (pl pl2 : PlannedStep) (st st2 : StepDef),
      (planScript [("raw", "/d/raw.csv")] [("report", "/d/out.csv")] ["report"]
        "run0" (fun k => toString k) [stepA, stepB])[i]? = some pl →
      (planScript [("raw", "/d/raw.csv")] [("report", "/d/out.csv")] ["report"]
        "run0" (fun k => toString k) [stepA, stepB])[i + 1]? = some pl2 →
      [stepA, stepB][i]? = some st →
      [stepA, stepB][i + 1]? = some st2 →
      ∀ t ∈ st2.input_file_set, t ∈ ["raw"] ∨ t ∈ st.output_file_set →
        (dictFind? pl2.input_paths t).isSome)) :=
  planner_path_coverage [stepA, stepB] [] ["raw"] ["report"]
    [("raw", "/d/raw.csv")] [("report", "/d/out.csv")] "run0"
    (fun k => toString k) (by decide) (by decide) (by decide) (by decide)
    (by
      intro t
      by_cases h : ("raw" : String) = t
      · subst h
        simp [dictFind?]
      · simp [dictFind?, h]
        intro he
        exact absurd he.symm h)
    (by
      intro t
      by_cases h : ("report" : String) = t
      · subst h
        simp [dictFind?]
      · simp [dictFind?, h]
        intro he
        exact absurd he.symm h)

/-! ### Runner: strict order and fail-fast -/

theorem runInstances_range' (build : Nat → Except PyExc Unit) (e : PyExc)
    (k : Nat) :
    ∀ (cnt s : Nat), s ≤ k → k < s + cnt →
      (∀ j, s ≤ j → j < k → build j = .ok ()) →
      build k = .error e →
      runInstances build (List.range' s cnt) =
        (List.range' s (k - s + 1), .error e) := by
  intro cnt
  induction cnt with
  | zero =>
    intro s hs hk _ _
    omega
  | succ m ih =>
    intro s hs hk hpre hfail
    rw [List.range'_succ s m 1]
    by_cases hsk : s = k
    · subst hsk
      show runInstances build (s :: List.range' (s + 1) m) = _
      simp only [runInstances, hfail]
      have h1 : s - s + 1 = 1 := by omega
      rw [h1]
      rfl
    · have hslt : s < k := lt_of_le_of_ne hs hsk
      have hbs : build s = .ok () := hpre s le_rfl hslt
      show runInstances build (s :: List.range' (s + 1) m) = _
      simp only [runInstances, hbs]
      rw [ih (s + 1) (by omega) (by omega)
        (fun j hj1 hj2 => hpre j (by omega) hj2) hfail]
      have h1 : k - s + 1 = (k - (s + 1) + 1) + 1 := by omega
      rw [h1]
      simp [List.range'_succ]

/-- C5: the runner builds the child instances strictly in declared order;
if instance k fails after all earlier instances succeeded, exactly the
instances 0..k are built (in order), the error propagates untransformed,
and no instance after k is ever built. -/
theorem run_in_order_fail_fast (build : Nat → Except PyExc Unit)
    (n k : Nat) (e : PyExc) (hk : k < n) (hfail : build k = .error e)
    (hpre : ∀ j, j < k → build j = .ok ()) :
    runInstances build (List.range n) = (List.range (k + 1), .error e) := by
  rw [List.range_eq_range', List.range_eq_range']
  have h := runInstances_range' build e k n 0 (by omega) (by omega)
    (fun j _ hj => hpre j hj) hfail
  simpa using h

/-- Witness for C5: with three instances whose second build fails, exactly
instances 0 and 1 are built and the failure is returned as-is. -/
theorem run_in_order_fail_fast_witness :
    runInstances
        (fun i => if i = 1 then (.error (.bakerError "boom") : Except PyExc Unit)
          else .ok ())
        (List.range 3) =
      (List.range 2, .error (.bakerError "boom")) :=
  run_in_order_fail_fast
    (fun i => if i = 1 then (.error (.bakerError "boom") : Except PyExc Unit)
      else .ok ())
    3 1 (.bakerError "boom") (by omega) rfl
    (fun j hj => by
      have hj0 : j = 0 := by omega
      subst hj0
      rfl)

/-! ### Temporary directories of distinct runs -/

theorem stringEq_of_data {s t : String} (h : s.data = t.data) : s = t :=
  congrArg String.mk h

theorem noslash_split (l1 : List Char) :
    ∀ (l2 u1 u2 : List Char), ('/' : Char) ∉ l1 → ('/' : Char) ∉ l2 →
      l1 ++ '/' :: u1 = l2 ++ '/' :: u2 → l1 = l2 := by
  induction l1 with
  | nil =>
    intro l2 u1 u2 _ h2 heq
    cases l2 with
    | nil => rfl
    | cons c t2 =>
      exfalso
      simp only [List.nil_append, List.cons_append, List.cons.injEq] at heq
      apply h2
      rw [← heq.1]
      simp
  | cons a t1 ih =>
    intro l2 u1 u2 h1 h2 heq
    cases l2 with
    | nil =>
      exfalso
      simp only [List.cons_append, List.nil_append, List.cons.injEq] at heq
      apply h1
      rw [heq.1]
      simp
    | cons c t2 =>
      simp only [List.cons_append, List.cons.injEq] at heq
      have ha : a = c := heq.1
      have ht : t1 = t2 := ih t2 u1 u2 (fun hm => h1 (by simp [hm]))
        (fun hm => h2 (by simp [hm])) heq.2
      rw [ha, ht]

/-- C9: runs with distinct identifiers use distinct temporary folders (the
folder name is a function of the identifier alone), and, since uuid-based
names contain no path separator, every temp file path allocated in one run
differs from every temp file path allocated in the other. -/
theorem temp_paths_disjoint_across_runs (sid1 sid2 : String)
    (uuids1 uuids2 : Nat → String) (hne : sid1 ≠ sid2)
    (h1 : ('/' : Char) ∉ sid1.data) (h2 : ('/' : Char) ∉ sid2.data) :
    tempFolder sid1 ≠ tempFolder sid2 ∧
    ∀ k1 k2, generateTempFilename sid1 uuids1 k1 ≠
      generateTempFilename sid2 uuids2 k2 := by
  constructor
  · intro h
    apply hne
    apply stringEq_of_data
    have hd := congrArg String.data h
    unfold tempFolder at hd
    rw [strData_append, strData_append] at hd
    exact List.append_cancel_left hd
  · intro k1 k2 h
    apply hne
    apply stringEq_of_data
    have hd := congrArg String.data h
    unfold generateTempFilename tempFolder at hd
    simp only [strData_append, List.append_assoc,
      show ("/" : String).data = ['/'] from rfl, List.singleton_append] at hd
    have hd2 := List.append_cancel_left hd
    exact noslash_split sid1.data sid2.data (uuids1 k1).data (uuids2 k2).data
      h1 h2 hd2

/-- Witness for C9 at concrete run identifiers a and b. -/
theorem temp_paths_disjoint_across_runs_witness :
    tempFolder "a" ≠ tempFolder "b" ∧
    ∀ k1 k2, generateTempFilename "a" (fun _ => "u") k1 ≠
      generateTempFilename "b" (fun _ => "u") k2 :=
  temp_paths_disjoint_across_runs "a" "b" (fun _ => "u") (fun _ => "u")
    (by decide) (by decide) (by decide)

/-! ### Frame property: sequence() does not mutate its arguments

To talk about mutation of the caller's objects, the two argument objects
(the seq_steps list and the exposed_intermediates set) live in an explicit
object store addressed by allocation order.  Each Python operation the
source performs on tag sets — set comprehensions, set difference, and
set.union — returns a new object, modelled by an allocation of a fresh
address; no operation in the source writes to an existing address. -/

/-- Address-indexed lookup in an object table. -/
def addrFind? {α : Type} : List (Nat × α) → Nat → Option α
  | [], _ => none
  | (a, v) :: rest, b => if a = b then some v else addrFind? rest b

/-- The heap of Python objects relevant to sequence(): list objects,
tag-set objects, and the next fresh address. -/
structure PyObjStore where
  stepLists : List (Nat × List StepDef)
  tagSets : List (Nat × List Tag)
  next : Nat
deriving Repr, DecidableEq

/-- Allocation of a fresh tag-set object (the effect of a set
comprehension, set difference, or set.union in the source). -/
def allocTagSet (st : PyObjStore) (v : List Tag) : PyObjStore :=
  { st with tagSets := (st.next, v) :: st.tagSets, next := st.next + 1 }

/-- sequence() with its argument objects in the store: the values are read
through the arguments' addresses, the intermediate sets built by
_determine_sequence_interface (input comprehension, output comprehension,
non_inputs difference, the offending difference, and the final union) are
allocated as fresh objects, and the result is as in sequence.  No store
operation writes to an existing address, mirroring that the source never
calls a mutating method on either argument. -/
def sequenceST (st : PyObjStore) (stepsAddr exposedAddr : Nat) :
    Except PyExc SequenceResult × PyObjStore :=
  match addrFind? st.stepLists stepsAddr, addrFind? st.tagSets exposedAddr with
  | some seq_steps, some exposed =>
    match seq_steps with
    | [] => (.error (.bakerError "Cannot sequence fewer than 1 event"), st)
    | [s] => (.ok (.single s), st)
    | _ =>
      match buildLexicalScope seq_steps with
      | .error e => (.error e, st)
      | .ok scope =>
        let st1 := allocTagSet st (scopeInputs scope)
        let st2 := allocTagSet st1 (scopeRawOutputs scope)
        let st3 := allocTagSet st2 (nonInputTags scope)
        let st4 := allocTagSet st3 (offendingExposed scope exposed)
        if 0 < (offendingExposed scope exposed).length then
          (.error (.bakerError
            ("Attempting to expose non-generated intermediate(s): "
              ++ pyJoin ", " exposed)), st4)
        else
          let st5 := allocTagSet st4 ((scopeRawOutputs scope).union exposed)
          (.ok (.composite (scopeInputs scope)
            ((scopeRawOutputs scope).union exposed) seq_steps), st5)
  | _, _ => (.error (.bakerError "invalid object reference"), st)


theorem allocTagSet_stepLists (st : PyObjStore) (v : List Tag) :
    (allocTagSet st v).stepLists = st.stepLists := rfl

theorem allocTagSet_next (st : PyObjStore) (v : List Tag) :
    (allocTagSet st v).next = st.next + 1 := rfl

theorem allocTagSet_lookup_lt (st : PyObjStore) (v : List Tag) (x : Nat)
    (hx : x < st.next) :
    addrFind? (allocTagSet st v).tagSets x = addrFind? st.tagSets x := by
  show addrFind? ((st.next, v) :: st.tagSets) x = addrFind? st.tagSets x
  have hne : st.next ≠ x := by omega
  simp [addrFind?, hne]

/-- C10: sequence() never mutates its arguments: after any call, the
caller's step-list object is untouched (the list table is never written),
and every tag-set object allocated before the call — in particular the
shared default empty exposed set — still holds its old value; so
successive calls with the argument omitted all observe an empty set. -/
theorem sequence_no_argument_mutation (st : PyObjStore)
    (stepsAddr exposedAddr : Nat) :
    (sequenceST st stepsAddr exposedAddr).2.stepLists = st.stepLists ∧
    (∀ x, x < st.next →
      addrFind? (sequenceST st stepsAddr exposedAddr).2.tagSets x =
        addrFind? st.tagSets x) ∧
    (exposedAddr < st.next →
      addrFind? st.tagSets exposedAddr = some [] →
      addrFind? (sequenceST st stepsAddr exposedAddr).2.tagSets exposedAddr =
        some []) := by
  have hmain : (sequenceST st stepsAddr exposedAddr).2.stepLists = st.stepLists ∧
      ∀ x, x < st.next →
        addrFind? (sequenceST st stepsAddr exposedAddr).2.tagSets x =
          addrFind? st.tagSets x := by
    cases hsteps : addrFind? st.stepLists stepsAddr with
    | none => simp [sequenceST, hsteps]
    | some seq_steps =>
      cases hexp : addrFind? st.tagSets exposedAddr with
      | none => simp [sequenceST, hsteps, hexp]
      | some exposed =>
        match seq_steps with
        | [] => simp [sequenceST, hsteps, hexp]
        | [s] => simp [sequenceST, hsteps, hexp]
        | s1 :: s2 :: rest =>
          cases hscope : buildLexicalScope (s1 :: s2 :: rest) with
          | error e => simp [sequenceST, hsteps, hexp, hscope]
          | ok scope =>
            simp only [sequenceST, hsteps, hexp, hscope]
            by_cases hoff : 0 < (offendingExposed scope exposed).length
            · rw [if_pos hoff]
              refine ⟨rfl, ?_⟩
              intro x hx
              rw [allocTagSet_lookup_lt, allocTagSet_lookup_lt,
                allocTagSet_lookup_lt, allocTagSet_lookup_lt]
              · exact hx
              · simpa [allocTagSet_next] using by omega
              · simpa [allocTagSet_next] using by omega
              · simpa [allocTagSet_next] using by omega
            · rw [if_neg hoff]
              refine ⟨rfl, ?_⟩
              intro x hx
              rw [allocTagSet_lookup_lt, allocTagSet_lookup_lt,
                allocTagSet_lookup_lt, allocTagSet_lookup_lt,
                allocTagSet_lookup_lt]
              · exact hx
              · simpa [allocTagSet_next] using by omega
              · simpa [allocTagSet_next] using by omega
              · simpa [allocTagSet_next] using by omega
              · simpa [allocTagSet_next] using by omega
  refine ⟨hmain.1, hmain.2, ?_⟩
  intro hb hempty
  rw [hmain.2 exposedAddr hb]
  exact hempty

/-- Witness for C10: a concrete store holding the worked example's step
list and the shared default empty exposed set. -/
theorem sequence_no_argument_mutation_witness :
    (sequenceST ⟨[(0, [stepA, stepB])], [(1, [])], 2⟩ 0 1).2.stepLists =
      [(0, [stepA, stepB])] ∧
    (∀ x, x < 2 →
      addrFind? (sequenceST ⟨[(0, [stepA, stepB])], [(1, [])], 2⟩ 0 1).2.tagSets x =
        addrFind? ([(1, [])] : List (Nat × List Tag)) x) ∧
    ((1 : Nat) < 2 →
      addrFind? ([(1, [])] : List (Nat × List Tag)) 1 = some [] →
      addrFind? (sequenceST ⟨[(0, [stepA, stepB])], [(1, [])], 2⟩ 0 1).2.tagSets 1 =
        some []) :=
  sequence_no_argument_mutation ⟨[(0, [stepA, stepB])], [(1, [])], 2⟩ 0 1

/-- Coherence of the store-level model with the pure model: the result
value of sequenceST is exactly the result of sequence on the values the
argument addresses hold. -/
theorem sequenceST_fst_eq_sequence (st : PyObjStore)
    (stepsAddr exposedAddr : Nat) (seq_steps : List StepDef)
    (exposed : List Tag)
    (hsteps : addrFind? st.stepLists stepsAddr = some seq_steps)
    (hexp : addrFind? st.tagSets exposedAddr = some exposed) :
    (sequenceST st stepsAddr exposedAddr).1 = sequence seq_steps exposed := by
  match seq_steps with
  | [] => simp [sequenceST, hsteps, hexp, sequence]
  | [s] => simp [sequenceST, hsteps, hexp, sequence]
  | s1 :: s2 :: rest =>
    cases hscope : buildLexicalScope (s1 :: s2 :: rest) with
    | error e =>
      simp [sequenceST, hsteps, hexp, hscope, sequence, bind, Except.bind]
    | ok scope =>
      rw [sequence_eval s1 s2 rest exposed scope hscope]
      simp only [sequenceST, hsteps, hexp, hscope]
      by_cases hoff : 0 < (offendingExposed scope exposed).length
      · rw [if_pos hoff, if_pos hoff]
      · rw [if_neg hoff, if_neg hoff]

end Tinybaker
